import Mathlib

/-!
A shallow embedding, in Lean, of the two core subsystems of the `catrepo`
repository: the file-selection engine (`src/catrepo/walker.py`) and the tree
aggregation/rendering engine (`src/catrepo/tree.py`).

Strings are modelled as lists of characters (`Str`), and each Python string
helper used by the code (`str.split`, `str.replace`, `str.lstrip`, ...) is
given an executable Lean counterpart.  Paths are plain relative path strings,
separated by `/`.  Filesystem interaction is modelled by data: the recursive
walk is a given list of candidate entries, the `.gitignore` file is an
optional list of lines (`none` = missing or unreadable), and the existence
test used by pattern expansion is a boolean function on pattern strings.

Python's `fnmatch.fnmatch` is modelled for the `*`, `?` and literal forms
that the code and the specification exercise; `[...]` character classes are
not modelled and `[` is treated as a literal character.  On POSIX,
`fnmatch.fnmatch` is case-sensitive, as here.
-/

/-- Strings as lists of characters. -/
abbrev Str := List Char

/-- Python `s.split(sep)` for a one-character separator:
`"".split("/") = [""]`, `"a//b".split("/") = ["a", "", "b"]`. -/
def pySplit (sep : Char) : Str → List Str
  | [] => [[]]
  | c :: cs =>
    if c = sep then [] :: pySplit sep cs
    else
      match pySplit sep cs with
      | [] => [[c]]
      | g :: gs => (c :: g) :: gs

/-- Python `sep.join(parts)` for a one-character separator. -/
def pyJoin (sep : Char) : List Str → Str
  | [] => []
  | [g] => g
  | g :: gs => g ++ sep :: pyJoin sep gs

/-- Fueled worker for `pyReplace`; each step consumes at least one character
of the subject, so fuel `s.length` is always enough. -/
def pyReplaceF (old new : Str) : Nat → Str → Str
  | _, [] => []
  | 0, s => s
  | fuel + 1, c :: cs =>
    if old ≠ [] ∧ old.isPrefixOf (c :: cs) then
      new ++ pyReplaceF old new fuel (cs.drop (old.length - 1))
    else
      c :: pyReplaceF old new fuel cs

/-- Python `s.replace(old, new)` for a non-empty `old`: leftmost,
non-overlapping occurrences.  (The code never calls it with an empty `old`.) -/
def pyReplace (old new s : Str) : Str :=
  pyReplaceF old new s.length s

/-- Python `s.lstrip(chars)`: drop leading characters belonging to `chars`. -/
def pyLstrip (chars : List Char) (s : Str) : Str :=
  s.dropWhile (fun c => chars.contains c)

/-- Python `s.rstrip(chars)`: drop trailing characters belonging to `chars`. -/
def pyRstrip (chars : List Char) (s : Str) : Str :=
  (s.reverse.dropWhile (fun c => chars.contains c)).reverse

/-- Python whitespace for `str.strip()` with no argument. -/
def isPySpace (c : Char) : Bool :=
  c = ' ' || c = '\t' || c = '\n' || c = '\r' || c = '\x0b' || c = '\x0c'

/-- Python `s.strip()`: drop leading and trailing whitespace. -/
def pyStrip (s : Str) : Str :=
  ((s.dropWhile isPySpace).reverse.dropWhile isPySpace).reverse

/-- Python `s.startswith(pre)`. -/
def pyStartsWith (pre s : Str) : Bool :=
  pre.isPrefixOf s

/-- Python `s.endswith(suf)`. -/
def pyEndsWith (suf s : Str) : Bool :=
  suf.isSuffixOf s

/-- Python `sub in s` (substring test; an empty `sub` is contained in
everything). -/
def pyContains (sub : Str) : Str → Bool
  | [] => sub.isEmpty
  | c :: cs => sub.isPrefixOf (c :: cs) || pyContains sub cs

/-- Python `os.path.basename(s)` for slash-separated paths: the part after
the last `/`. -/
def pyBasename (s : Str) : Str :=
  (pySplit '/' s).getLastD []

/-- Python `fnmatch.fnmatch(name, pat)` (POSIX, so case-sensitive), for
patterns built from `*` (any run of characters, `/` and newline included),
`?` (exactly one character) and literal characters.  A `*` matches some
prefix of the remaining subject, then the rest of the pattern matches the
rest of the subject. -/
def fnmatch : Str → Str → Bool
  | s, [] => s.isEmpty
  | s, '*' :: ps =>
    (List.range (s.length + 1)).any (fun i => fnmatch (s.drop i) ps)
  | s, '?' :: ps =>
    match s with
    | [] => false
    | _ :: s' => fnmatch s' ps
  | s, p :: ps =>
    match s with
    | [] => false
    | c :: s' => c == p && fnmatch s' ps

/-- The regular-expression translation used by `_matches_exclude_pattern`
for patterns containing `**`: after `re.escape`, `\*\*` becomes `.*`
(any run of non-newline characters), a remaining `\*` becomes `[^/]*`
(any run of non-`/` characters) and `\?` becomes `.` (one non-newline
character); everything else is literal.  The whole path must match
(`^...$`; Python's `$` also accepts a single trailing newline). -/
def reGlob : Str → Str → Bool
  | s, [] => s.isEmpty || s == ['\n']
  | s, '*' :: '*' :: ps =>
    (List.range (s.length + 1)).any
      (fun i => (s.take i).all (fun c => c ≠ '\n') && reGlob (s.drop i) ps)
  | s, '*' :: ps =>
    (List.range (s.length + 1)).any
      (fun i => (s.take i).all (fun c => c ≠ '/') && reGlob (s.drop i) ps)
  | s, '?' :: ps =>
    match s with
    | [] => false
    | c :: s' => c ≠ '\n' && reGlob s' ps
  | s, p :: ps =>
    match s with
    | [] => false
    | c :: s' => c == p && reGlob s' ps


/-! ## File-selection engine (`src/catrepo/walker.py`) -/

/-- Model of `_load_gitignore_patterns`: the `.gitignore` file is modelled as an
optional list of lines; `none` stands for a missing file (`.exists()` is
false) or one whose `open` raises `OSError`.  Each line is stripped; empty
lines, comment lines (`#...`) and negation lines (`!...`) are skipped, and
the remaining stripped lines are kept in order. -/
def load_gitignore_patterns (file : Option (List Str)) : List Str :=
  match file with
  | none => []
  | some lines =>
    (lines.map pyStrip).filter
      (fun l => !(l.isEmpty || pyStartsWith ['#'] l || pyStartsWith ['!'] l))

/-- Model of `_matches_gitignore_pattern`: gitignore-style matching of a relative
path against one pattern, exactly as in the source (separator
normalisation, the trailing-`/` directory form, the leading-`/` rooted
form, the internal-`/` form, and the bare-name form that also tries every
path component and every partial path). -/
def matches_gitignore_pattern (rel_path pattern : Str) : Bool :=
  let rel := pyReplace "\\".data "/".data rel_path
  let pat := pyReplace "\\".data "/".data pattern
  if pyEndsWith ['/'] pat then
    let p := pyRstrip ['/'] pat
    fnmatch rel p || fnmatch rel (p ++ "/**".data) ||
      fnmatch rel ("*/".data ++ p) || fnmatch rel ("*/".data ++ p ++ "/**".data)
  else if pyStartsWith ['/'] pat then
    fnmatch rel (pat.drop 1)
  else if pyContains ['/'] pat then
    fnmatch rel pat || fnmatch rel ("**/".data ++ pat)
  else
    let parts := pySplit '/' rel
    fnmatch (pyBasename rel) pat ||
      (List.range parts.length).any (fun i =>
        fnmatch (parts.getD i []) pat ||
          fnmatch (pyJoin '/' (parts.take (i + 1))) pat)

/-- Model of `_should_exclude_by_gitignore`: some gitignore pattern matches. -/
def should_exclude_by_gitignore (rel_path : Str) (patterns : List Str) : Bool :=
  patterns.any (fun pattern => matches_gitignore_pattern rel_path pattern)

/-- Model of `_matches_exclude_pattern`: exclude-pattern matching.  A pattern
containing `**` is reduced to its `**`-free base (`.replace("/**", "")`
then `.replace("**/", "")`); a slash-free base is matched against every
path component, otherwise the full pattern is matched as a regex
(`reGlob`; the translation never yields an invalid regex, so the
`re.error` handler in the source is dead).  A `**`-free pattern with a
wildcard or `/` is a whole-path `fnmatch`; a bare name is matched against
every path component. -/
def matches_exclude_pattern (rel_path pattern : Str) : Bool :=
  let rel := pyReplace "\\".data "/".data rel_path
  let pat := pyReplace "\\".data "/".data pattern
  if pyContains "**".data pat then
    let base := pyReplace "**/".data [] (pyReplace "/**".data [] pat)
    if !pyContains ['/'] base then
      (pySplit '/' rel).any (fun part => fnmatch part base)
    else
      reGlob rel pat
  else if pyContains ['*'] pat || pyContains ['?'] pat || pyContains ['/'] pat then
    fnmatch rel pat
  else
    (pySplit '/' rel).any (fun part => fnmatch part pat)

/-- The filesystem facts consulted by `collect_files`, as data:
`is_dir pat` models `(root / pat).is_dir()`, and `gitignore` models the
content of `root/.gitignore` (`none`: missing or unreadable). -/
structure WalkEnv where
  is_dir : Str → Bool
  gitignore : Option (List Str)

/-- One entry produced by the recursive walk (`root.rglob("*")`), carrying
the outcomes of the per-entry filesystem tests the loop performs:
`rel_path` is the path relative to the root, `is_file` the
`file.is_file()` test, `is_binary` the `is_binary_path` heuristic for the
chosen strictness, `readable` the `os.access(file, R_OK)` test and `size`
the `stat().st_size`. -/
structure Candidate where
  rel_path : Str
  is_file : Bool
  is_binary : Bool
  readable : Bool
  size : Nat

/-- The `_expand` closure of `collect_files`: normalise separators, strip
leading `.`/`/` characters and trailing `/` characters, keep `*` and `**`
as they are, and turn a name for which `(root / pat).is_dir()` holds into
the recursive form `pat ++ "/**"`. -/
def expand (env : WalkEnv) (pattern : Str) : Str :=
  let pat := pyRstrip ['/'] (pyLstrip ['.', '/'] (pyReplace "\\".data "/".data pattern))
  if pat = "*".data ∨ pat = "**".data then pat
  else if env.is_dir pat then pat ++ "/**".data
  else pat

/-- The `git_included` test of `collect_files`: some (already expanded)
include pattern, after `lstrip("./")`, starts with `.git`. -/
def git_included (include_patterns : List Str) : Bool :=
  include_patterns.any (fun pat => pyStartsWith ".git".data (pyLstrip ['.', '/'] pat))

/-- Step `include = list(include or ["*"])` followed by expansion: a `None` or
empty include sequence becomes `["*"]`, then every pattern is expanded. -/
def effective_include (env : WalkEnv) (include_patterns : Option (List Str)) : List Str :=
  let inc := match include_patterns with
    | none => ["*".data]
    | some l => if l.isEmpty then ["*".data] else l
  inc.map (expand env)

/-- Step `exclude = list(exclude or [])` followed by expansion, and the forced
exclusion of the version-control directory: unless `git_included` holds of
the effective include patterns, `.git/**` and `.git` are appended. -/
def effective_exclude (env : WalkEnv) (include_patterns exclude_patterns : Option (List Str)) : List Str :=
  let exc := (match exclude_patterns with
    | none => []
    | some l => l).map (expand env)
  if git_included (effective_include env include_patterns) then exc
  else exc ++ [".git/**".data, ".git".data]

/-- The pattern-selection stage of the `collect_files` loop, written with
the same early-exit structure as the source's `continue` statements: a
path is dropped if no include pattern `fnmatch`es it, then dropped if some
exclude pattern matches it, then dropped if gitignore support is on and
some loaded gitignore pattern matches it; otherwise it passes. -/
def passes_pattern_stage (env : WalkEnv) (include_patterns exclude_patterns : Option (List Str))
    (use_gitignore : Bool) (rel_path : Str) : Bool :=
  let inc := effective_include env include_patterns
  let exc := effective_exclude env include_patterns exclude_patterns
  let gitignore_patterns :=
    if use_gitignore then load_gitignore_patterns env.gitignore else []
  if !(inc.any (fun pattern => fnmatch rel_path pattern)) then false
  else if exc.any (fun pattern => matches_exclude_pattern rel_path pattern) then false
  else if use_gitignore && should_exclude_by_gitignore rel_path gitignore_patterns then false
  else true

/-- Model of `collect_files`, over a walk given as a list of candidates: keep the
regular files that pass the pattern stage, are not binary, are readable
and are no larger than `max_size`.  (Per-file `OSError`s, swallowed by the
source's `try`/`except`, have no counterpart for candidates given as pure
data; traversal order is the order of `entries`.) -/
def collect_files (env : WalkEnv) (entries : List Candidate)
    (include_patterns exclude_patterns : Option (List Str)) (max_size : Nat)
    (use_gitignore : Bool) : List Candidate :=
  entries.filter (fun c =>
    let rel := pyReplace "\\".data "/".data c.rel_path
    c.is_file && passes_pattern_stage env include_patterns exclude_patterns use_gitignore rel &&
      !c.is_binary && c.readable && decide (c.size ≤ max_size))


/-! ## Tree engine (`src/catrepo/tree.py`) -/

/-- Record `FileInfo` as consumed by the tree builder: the relative path is kept
as its list of segments (Python `Path.parts`) together with the byte size.
The modification timestamp carried by the walker's records is a float the
tree code never reads, so it is not modelled. -/
structure FileInfo where
  parts : List Str
  size : Nat

/-- Record `TreeNode`.  Here `path` is the `parts` of the `Path` the source stores
(the remaining relative path at creation time, so a single segment for
every node except the root, whose `path` is the walk root and is modelled
as `[]`). -/
structure TreeNode where
  name : Str
  path : List Str
  is_dir : Bool
  size : Nat
  tokens : Nat
  children : List TreeNode

instance : Inhabited TreeNode := ⟨⟨[], [], false, 0, 0, []⟩⟩

/-- A fresh directory placeholder node created while descending. -/
def dirNode (p : Str) : TreeNode :=
  ⟨p, [p], true, 0, 0, []⟩

/-- A fresh leaf node for a file of the given size; the token estimate is
`size // 4`. -/
def leafNode (p : Str) (size : Nat) : TreeNode :=
  ⟨p, [p], false, size, size / 4, []⟩

/-- Replace the first element satisfying `pred` by its image under `f`; if
none exists, append `fresh`.  This is the search-else-create step of
`add_to_tree` over a directory's child list. -/
def update_or_append (pred : TreeNode → Bool) (f : TreeNode → TreeNode)
    (fresh : TreeNode) : List TreeNode → List TreeNode
  | [] => [fresh]
  | c :: cs => if pred c then f c :: cs else c :: update_or_append pred f fresh cs

/-- Model of `add_to_tree`: insert one record by walking its path segments.  The
last segment becomes a leaf (or, for a `None` record, a directory
placeholder — a branch the module never takes); an intermediate segment
reuses the first existing directory child of the same name, creating one
when absent.  The source would raise `IndexError` on an empty `parts`
tuple; that unreachable case is modelled as the identity. -/
def add_to_tree (node : TreeNode) : List Str → Option FileInfo → TreeNode
  | [p], some fi => { node with children := node.children ++ [leafNode p fi.size] }
  | [p], none => { node with children := node.children ++ [dirNode p] }
  | p :: q :: rest, fi =>
    { node with
      children :=
        update_or_append (fun c => c.name == p && c.is_dir)
          (fun c => add_to_tree c (q :: rest) fi)
          (add_to_tree (dirNode p) (q :: rest) fi) node.children }
  | [], _ => node

mutual
/-- Model of `calc_size`: post-order roll-up.  A file node is returned unchanged; a
directory node gets its children rolled up and its `size`/`tokens` set to
the sums of the (updated) children's. -/
def calc_size : TreeNode → TreeNode
  | ⟨n, p, d, s, tk, cs⟩ =>
    if d then
      let cs' := calc_size_list cs
      ⟨n, p, d, (cs'.map TreeNode.size).sum, (cs'.map TreeNode.tokens).sum, cs'⟩
    else ⟨n, p, d, s, tk, cs⟩

def calc_size_list : List TreeNode → List TreeNode
  | [] => []
  | c :: cs => calc_size c :: calc_size_list cs
end

/-- Lexicographic `≤` on strings by code point, Python's `str` order. -/
def strLe : Str → Str → Bool
  | [], _ => true
  | _ :: _, [] => false
  | a :: as_, b :: bs => decide (a < b) || (a == b && strLe as_ bs)

/-- Python `str.lower()`, for the ASCII letters that can occur in the
names the claims exercise. -/
def lowerStr (s : Str) : Str :=
  s.map Char.toLower

/-- The comparison induced by `sort_key`: key `-size` for `"size"`, key
`-tokens` for `"tokens"`, and the case-insensitive name for anything else
(the source's `else` branch). -/
def sort_le (sort_by : Str) (a b : TreeNode) : Bool :=
  if sort_by == "size".data then decide (b.size ≤ a.size)
  else if sort_by == "tokens".data then decide (b.tokens ≤ a.tokens)
  else strLe (lowerStr a.name) (lowerStr b.name)

/-- Stable insertion: place `a` before the first `b` with `le a b`.  With
a total preorder `le` this reproduces Python's stable `list.sort`. -/
def stableInsert (le : TreeNode → TreeNode → Bool) (a : TreeNode) :
    List TreeNode → List TreeNode
  | [] => [a]
  | b :: bs => if le a b then a :: b :: bs else b :: stableInsert le a bs

/-- Stable sort by repeated insertion; a model of Python's stable
`list.sort(key=...)` (any two stable sorts for a total preorder agree). -/
def stableSort (le : TreeNode → TreeNode → Bool) : List TreeNode → List TreeNode
  | [] => []
  | a :: as_ => stableInsert le a (stableSort le as_)

mutual
/-- Model of `sort_children`: sort a directory's children — partitioned into
directories then files when `dirs_first` — and recurse into directory
children.  The source sorts the list first and then recurses into each
child; recursion only reorders grandchildren and never changes a child's
`name`, `size`, `tokens` or `is_dir`, so sorting the recursively-sorted
children (done here to keep the recursion structural) is the same
function. -/
def sort_children (sort_by : Str) (dirs_first : Bool) : TreeNode → TreeNode
  | ⟨n, p, d, s, tk, cs⟩ =>
    let cs' := sort_children_list sort_by dirs_first cs
    let sorted :=
      if dirs_first then
        stableSort (sort_le sort_by) (cs'.filter (fun c => c.is_dir)) ++
          stableSort (sort_le sort_by) (cs'.filter (fun c => !c.is_dir))
      else stableSort (sort_le sort_by) cs'
    ⟨n, p, d, s, tk, sorted⟩

def sort_children_list (sort_by : Str) (dirs_first : Bool) :
    List TreeNode → List TreeNode
  | [] => []
  | c :: cs =>
    (if c.is_dir then sort_children sort_by dirs_first c else c) ::
      sort_children_list sort_by dirs_first cs
end

mutual
/-- Model of `trim_depth`: clear the children of every directory node at depth
`≥ max_depth` (the root is at depth 0); run after aggregation and
sorting. -/
def trim_depth (max_depth : Int) : TreeNode → Nat → TreeNode
  | ⟨n, p, d, s, tk, cs⟩, depth =>
    if max_depth ≤ (depth : Int) then ⟨n, p, d, s, tk, []⟩
    else ⟨n, p, d, s, tk, trim_depth_list max_depth cs (depth + 1)⟩

def trim_depth_list (max_depth : Int) : List TreeNode → Nat → List TreeNode
  | [], _ => []
  | c :: cs, depth =>
    (if c.is_dir then trim_depth max_depth c depth else c) ::
      trim_depth_list max_depth cs depth
end

/-- Model of `build_tree`: insert every record, roll up aggregates, sort, and
finally prune by depth when `max_depth` is given.  The root node carries
the walk root's name.  (The `file_map` dictionary the source builds first
is never read afterwards and is not modelled.) -/
def build_tree (files : List FileInfo) (root_name : Str)
    (max_depth : Option Int) (sort_by : Str) (dirs_first : Bool) : TreeNode :=
  let root_node : TreeNode := ⟨root_name, [], true, 0, 0, []⟩
  let t := files.foldl (fun n fi => add_to_tree n fi.parts (some fi)) root_node
  let t := calc_size t
  let t := sort_children sort_by dirs_first t
  match max_depth with
  | none => t
  | some m => trim_depth m t 0

/-- Decimal representation of a `Nat`, for f-string interpolation. -/
def fmtNat (n : Nat) : Str :=
  (Nat.repr n).data

/-- Python `f"{num / den:.1f}"` for the positive integer operands the
formatters use, modelled as exact one-decimal rounding (half-to-even, as
Python rounds) of the quotient. -/
def fmt1f (num den : Nat) : Str :=
  let n10 := num * 10
  let q := n10 / den
  let r := n10 % den
  let rounded :=
    if den < 2 * r then q + 1
    else if 2 * r < den then q
    else if q % 2 = 1 then q + 1 else q
  fmtNat (rounded / 10) ++ '.' :: fmtNat (rounded % 10)

/-- Model of `_format_size`: bytes below 1024, then `K`/`M`/`G` at 1024-multiples
with one decimal. -/
def format_size (size : Nat) : Str :=
  if size < 1024 then fmtNat size
  else if size < 1024 * 1024 then fmt1f size 1024 ++ ['K']
  else if size < 1024 * 1024 * 1024 then fmt1f size (1024 * 1024) ++ ['M']
  else fmt1f size (1024 * 1024 * 1024) ++ ['G']

/-- Model of `_format_tokens`: counts below 1000, then `K`/`M`/`B` at
1000-multiples with one decimal. -/
def format_tokens (tokens : Nat) : Str :=
  if tokens < 1000 then fmtNat tokens
  else if tokens < 1000 * 1000 then fmt1f tokens 1000 ++ ['K']
  else if tokens < 1000 * 1000 * 1000 then fmt1f tokens (1000 * 1000) ++ ['M']
  else fmt1f tokens (1000 * 1000 * 1000) ++ ['B']

/-- Python `f"{s:>10}"`: right-align in a field of 10 by left-padding with
spaces. -/
def padLeft (w : Nat) (s : Str) : Str :=
  List.replicate (w - s.length) ' ' ++ s

mutual
/-- Model of `render_tree`: one line per node — accumulated prefix, `└── `/`├── `
connector, an optional `[{size:>10}] ` annotation when `show_size` (the
source spells the file and directory cases as two identical branches),
the name, and ` ({tokens} tok)` for files when `show_tokens` — followed
by the children with the prefix extended by four spaces after a last
sibling and `│   ` otherwise. -/
def render_tree (show_tokens show_size : Bool) : TreeNode → Str → Bool → List Str
  | ⟨name, _, d, size, tokens, cs⟩, pre, is_last =>
    let connector := if is_last then "└── ".data else "├── ".data
    let line := pre ++ connector ++
      (if show_size then '[' :: padLeft 10 (format_size size) ++ "] ".data else []) ++
      name ++
      (if show_tokens && !d then " (".data ++ format_tokens tokens ++ " tok)".data else [])
    let new_pre := pre ++ (if is_last then "    ".data else "│   ".data)
    line :: render_children show_tokens show_size cs new_pre

/-- The loop over `root.children`, tracking whether each child is the last
sibling. -/
def render_children (show_tokens show_size : Bool) : List TreeNode → Str → List Str
  | [], _ => []
  | [c], pre => render_tree show_tokens show_size c pre true
  | c :: c' :: cs, pre =>
    render_tree show_tokens show_size c pre false ++
      render_children show_tokens show_size (c' :: cs) pre
end

mutual
/-- Model of `count_nodes`: `(directories, files)` over the final tree — a file
counts `(0, 1)`, a directory counts itself plus its children's counts. -/
def count_nodes : TreeNode → Nat × Nat
  | ⟨_, _, d, _, _, cs⟩ =>
    if d then
      let counts := count_nodes_list cs
      (1 + counts.1, counts.2)
    else (0, 1)

def count_nodes_list : List TreeNode → Nat × Nat
  | [] => (0, 0)
  | c :: cs =>
    let a := count_nodes c
    let b := count_nodes_list cs
    (a.1 + b.1, a.2 + b.2)
end

/-- Model of `generate_tree_view`: build, render, then append a blank line and the
`"{num_dirs} directories, {num_files} files"` summary, where `num_dirs`
is the directory count of the (possibly depth-pruned) tree minus one for
the root (`max(0, ...)`, which is `Nat` subtraction). -/
def generate_tree_view (files : List FileInfo) (root_name : Str)
    (max_depth : Option Int) (show_tokens show_size : Bool)
    (sort_by : Str) (dirs_first : Bool) : Str :=
  let tree := build_tree files root_name max_depth sort_by dirs_first
  let lines := render_tree show_tokens show_size tree [] true
  let counts := count_nodes tree
  let num_dirs := counts.1 - 1
  let num_files := counts.2
  pyJoin '\n'
    (lines ++ [[], fmtNat num_dirs ++ " directories, ".data ++ fmtNat num_files ++ " files".data])


/-! ## Predicates about built trees -/

/-- No element of `cs` repeats the name of a later element. -/
def names_unique : List TreeNode → Bool
  | [] => true
  | c :: cs => !(cs.any (fun d => d.name == c.name)) && names_unique cs

mutual
/-- The sibling-uniqueness property claimed by the specification's data
model: at every level of the tree, no two sibling nodes share a name. -/
def siblings_nodup : TreeNode → Bool
  | ⟨_, _, _, _, _, cs⟩ => names_unique cs && siblings_nodup_list cs

def siblings_nodup_list : List TreeNode → Bool
  | [] => true
  | c :: cs => siblings_nodup c && siblings_nodup_list cs
end

/-- No directory element of `cs` repeats the name of a later directory
element (file leaves are unconstrained). -/
def dir_names_unique : List TreeNode → Bool
  | [] => true
  | c :: cs =>
    (!c.is_dir || !(cs.any (fun d => d.is_dir && d.name == c.name))) &&
      dir_names_unique cs

mutual
/-- Sibling-uniqueness restricted to directory nodes: at every level, no
two sibling directories share a name. -/
def dirs_nodup : TreeNode → Bool
  | ⟨_, _, _, _, _, cs⟩ => dir_names_unique cs && dirs_nodup_list cs

def dirs_nodup_list : List TreeNode → Bool
  | [] => true
  | c :: cs => dirs_nodup c && dirs_nodup_list cs
end

mutual
/-- The sum of the sizes of the file leaves of a subtree (a directory's
stored `size` field is ignored; a file leaf contributes its `size`). -/
def file_size_sum : TreeNode → Nat
  | ⟨_, _, d, s, _, cs⟩ => if d then file_size_sum_list cs else s

def file_size_sum_list : List TreeNode → Nat
  | [] => 0
  | c :: cs => file_size_sum c + file_size_sum_list cs
end

mutual
/-- The sum of the token estimates of the file leaves of a subtree. -/
def file_tokens_sum : TreeNode → Nat
  | ⟨_, _, d, _, tk, cs⟩ => if d then file_tokens_sum_list cs else tk

def file_tokens_sum_list : List TreeNode → Nat
  | [] => 0
  | c :: cs => file_tokens_sum c + file_tokens_sum_list cs
end

/-- The aggregate invariant of the specification's data model: every
directory node's `size` (resp. `tokens`) equals the sum of the sizes
(resp. token estimates) of all file leaves below it.  (The descent is
guarded by `is_dir`: in a built tree only directories have children.) -/
inductive AggOk : TreeNode → Prop
  | intro (t : TreeNode) :
      (t.is_dir = true → t.size = file_size_sum t ∧ t.tokens = file_tokens_sum t) →
      (t.is_dir = true → ∀ c ∈ t.children, AggOk c) → AggOk t

/-- Relation `Agrees s t`: `t` is obtained from `s` by only emptying the child
lists of some nodes — every node of `t` corresponds to a node of `s` with
the same name, path, kind and aggregates.  This is what depth pruning
does to a tree. -/
inductive Agrees : TreeNode → TreeNode → Prop
  | prune (s t : TreeNode) :
      t.name = s.name → t.path = s.path → t.is_dir = s.is_dir →
      t.size = s.size → t.tokens = s.tokens →
      t.children = [] → Agrees s t
  | step (s t : TreeNode) :
      t.name = s.name → t.path = s.path → t.is_dir = s.is_dir →
      t.size = s.size → t.tokens = s.tokens →
      s.children.length = t.children.length →
      (∀ p ∈ s.children.zip t.children, Agrees p.1 p.2) → Agrees s t

/-! ## Helper lemmas -/

theorem tree_ind (P : TreeNode → Prop)
    (h : ∀ t : TreeNode, (∀ c ∈ t.children, P c) → P t) : ∀ t, P t := by
  have key : ∀ (n : Nat) (t : TreeNode), sizeOf t ≤ n → P t := by
    intro n
    induction n with
    | zero =>
      intro t ht
      cases t with
      | mk nm p d s tk cs =>
        simp only [TreeNode.mk.sizeOf_spec] at ht
        omega
    | succ n ih =>
      intro t ht
      apply h
      intro c hc
      apply ih
      have h1 := List.sizeOf_lt_of_mem hc
      cases t with
      | mk nm p d s tk cs =>
        simp only [TreeNode.mk.sizeOf_spec] at ht
        simp only at h1 hc
        omega
  intro t
  exact key (sizeOf t) t (Nat.le_refl _)

/-! ## C6: the gitignore pattern `build/` -/

/-- C6: the gitignore pattern `"build/"` matches (and therefore excludes)
`"build/x.txt"` and `"sub/build/x.txt"` but does not match
`"buildscript.sh"`. -/
theorem c6_gitignore_build_dir :
    matches_gitignore_pattern "build/x.txt".data "build/".data = true ∧
    matches_gitignore_pattern "sub/build/x.txt".data "build/".data = true ∧
    matches_gitignore_pattern "buildscript.sh".data "build/".data = false := by
  exact ⟨by decide, by decide, by decide⟩

/-! ## C7: the exclude pattern `**/*.log` -/

/-- C7: the exclude pattern `"**/*.log"` matches (and therefore excludes)
`"a.log"` and `"sub/dir/b.log"` but does not match `"a.log.txt"`. -/
theorem c7_exclude_star_star_log :
    matches_exclude_pattern "a.log".data "**/*.log".data = true ∧
    matches_exclude_pattern "sub/dir/b.log".data "**/*.log".data = true ∧
    matches_exclude_pattern "a.log.txt".data "**/*.log".data = false := by
  exact ⟨by decide, by decide, by decide⟩

/-! ## C1: rendering `["a/b.txt" (size 10)]` with `max_depth = 1` -/

/-- C1, counterexample: on the input `["a/b.txt" (size 10)]` with
`max_depth = 1`, the claimed summary of 1 directory and 1 file is wrong:
the summary line, computed on the depth-pruned tree, is
`"1 directories, 0 files"`, and the rendered text never reports one
file. -/
theorem c1_counterexample :
    generate_tree_view [⟨["a".data, "b.txt".data], 10⟩] "repo".data (some 1)
        true true "name".data true =
      "└── [        10] repo\n    └── [        10] a\n\n1 directories, 0 files".data ∧
    count_nodes (build_tree [⟨["a".data, "b.txt".data], 10⟩] "repo".data (some 1)
        "name".data true) = (2, 0) ∧
    pyContains "1 files".data
      (generate_tree_view [⟨["a".data, "b.txt".data], 10⟩] "repo".data (some 1)
        true true "name".data true) = false := by
  exact ⟨by decide, by decide, by decide⟩

/-- C1, amended: building from `["a/b.txt" (size 10)]` and rendering with
`max_depth = 1` shows directory `a` with a size annotation of 10 (when
`show_size` is on), hides file `b.txt`, and the summary reports
1 directory and 0 files (the pruned file is not counted, because the
summary is computed over the depth-pruned tree). -/
theorem c1_amended :
    pySplit '\n'
        (generate_tree_view [⟨["a".data, "b.txt".data], 10⟩] "repo".data (some 1)
          true true "name".data true) =
      ["└── [        10] repo".data, "    └── [        10] a".data, [],
        "1 directories, 0 files".data] ∧
    pyContains "b.txt".data
      (generate_tree_view [⟨["a".data, "b.txt".data], 10⟩] "repo".data (some 1)
        true true "name".data true) = false := by
  exact ⟨by decide, by decide⟩

/-! ## C3: forced exclusion of the `.git` directory -/

/-- After `lstrip("./")` a string never starts with `.`, so it never
starts with `.git`. -/
theorem pyStartsWith_dotgit_pyLstrip (s : Str) :
    pyStartsWith ".git".data (pyLstrip ['.', '/'] s) = false := by
  induction s with
  | nil => rfl
  | cons c cs ih =>
    by_cases h1 : c = '.'
    · have h : pyLstrip ['.', '/'] (c :: cs) = pyLstrip ['.', '/'] cs := by
        simp [pyLstrip, List.dropWhile_cons, h1]
      rw [h]; exact ih
    · by_cases h2 : c = '/'
      · have h : pyLstrip ['.', '/'] (c :: cs) = pyLstrip ['.', '/'] cs := by
          simp [pyLstrip, List.dropWhile_cons, h2]
        rw [h]; exact ih
      · have hl : pyLstrip ['.', '/'] (c :: cs) = c :: cs := by
          simp [pyLstrip, List.dropWhile_cons, h1, h2]
        rw [hl]
        have hb : ('.' == c) = false := by
          rw [beq_eq_false_iff_ne]; exact fun e => h1 e.symm
        simp [pyStartsWith, List.isPrefixOf, hb]

/-- Function `git_included` is constantly false: it tests the *expanded* include
patterns, whose leading dots `_expand` has already stripped, so the
source's "unless explicitly included" escape hatch for `.git` can never
fire.  (This also holds for non-expanded inputs, since `git_included`
re-strips leading `.`/`/` itself.) -/
theorem git_included_false (l : List Str) : git_included l = false := by
  simp only [git_included, List.any_eq_false]
  intro pat _
  simp [pyStartsWith_dotgit_pyLstrip pat]

/-- C3: the code contradicts its own comment ("Always exclude .git
directory unless explicitly included"): even with the include pattern
`.git/**` explicitly naming `.git`, a readable non-binary file
`.git/config` is not collected — `_expand`'s `lstrip("./")` rewrites the
include pattern to `git/**` and `git_included` (tested on the stripped
patterns) never fires, so `.git` stays force-excluded. -/
theorem c3_git_include_bypass_dead :
    collect_files ⟨fun _ => false, none⟩
        [⟨".git/config".data, true, false, true, 4⟩]
        (some [".git/**".data]) none 1048576 false = [] ∧
    git_included (effective_include ⟨fun _ => false, none⟩ (some [".git/**".data])) = false := by
  exact ⟨rfl, git_included_false _⟩

/-! ## C5: sibling name uniqueness -/

/-- C5, counterexample: an input list that repeats the relative path `x`
produces two sibling file leaves both named `x`, so the claimed
"no two siblings share a name" invariant fails. -/
theorem c5_counterexample :
    siblings_nodup
        (build_tree [⟨["x".data], 1⟩, ⟨["x".data], 2⟩] "r".data none "name".data true) =
      false ∧
    (build_tree [⟨["x".data], 1⟩, ⟨["x".data], 2⟩] "r".data none
        "name".data true).children.map TreeNode.name = ["x".data, "x".data] := by
  exact ⟨by decide, by decide⟩

/-! ## C10: an empty include sequence admits everything -/

/-- The pattern `*` fnmatches every string. -/
theorem fnmatch_star (s : Str) : fnmatch s "*".data = true := by
  show fnmatch s ['*'] = true
  rw [fnmatch]
  simp only [List.any_eq_true, List.mem_range]
  exact ⟨s.length, Nat.lt_succ_self _, by simp [fnmatch]⟩

/-- C10: a `None` or empty include sequence is replaced by `["*"]`, and
`*` fnmatches every relative path, so no candidate is ever rejected at
the include stage. -/
theorem c10_empty_include_admits_all (env : WalkEnv) (rel : Str) :
    effective_include env none = ["*".data] ∧
    effective_include env (some []) = ["*".data] ∧
    (effective_include env none).any (fun pattern => fnmatch rel pattern) = true ∧
    (effective_include env (some [])).any (fun pattern => fnmatch rel pattern) = true := by
  have h1 : effective_include env none = ["*".data] := rfl
  have h2 : effective_include env (some []) = ["*".data] := rfl
  refine ⟨h1, h2, ?_, ?_⟩
  · rw [h1]; simp [fnmatch_star rel]
  · rw [h2]; simp [fnmatch_star rel]

/-! ## C9: a missing or unreadable `.gitignore` -/

/-- C9: a missing or unreadable `.gitignore` loads as the empty rule set,
and a `collect_files` run with gitignore support enabled over such a root
returns exactly what a run with gitignore support disabled returns — the
walk proceeds, no candidate is rejected by the gitignore stage. -/
theorem c9_missing_gitignore_empty_and_harmless (is_dir : Str → Bool)
    (entries : List Candidate) (inc exc : Option (List Str)) (max_size : Nat) :
    load_gitignore_patterns none = [] ∧
    collect_files ⟨is_dir, none⟩ entries inc exc max_size true =
      collect_files ⟨is_dir, none⟩ entries inc exc max_size false := by
  refine ⟨rfl, ?_⟩
  unfold collect_files
  apply List.filter_congr
  intro c _
  simp [passes_pattern_stage, load_gitignore_patterns, should_exclude_by_gitignore]

/-! ## C8: negation lines are dropped -/

/-- Removing the lines whose stripped form starts with `!` does not
change the loaded gitignore rule set: the loader drops them anyway. -/
theorem load_gitignore_drop_neg (lines : List Str) :
    load_gitignore_patterns
        (some (lines.filter (fun l => !pyStartsWith ['!'] (pyStrip l)))) =
      load_gitignore_patterns (some lines) := by
  unfold load_gitignore_patterns
  induction lines with
  | nil => rfl
  | cons l ls ih =>
    simp at ih
    by_cases h : pyStartsWith ['!'] (pyStrip l) = true
    · simpa [List.filter_cons, h] using ih
    · simp [List.filter_cons, h]
      rw [ih]

/-- C8: every loaded gitignore pattern is free of a leading `!` (negation
lines are dropped while loading), and consequently the exclusion verdict
of the loaded rule set is the same as that of the rule set loaded from
the file with all negation lines removed — a negation line never excludes
and never re-includes anything. -/
theorem c8_negation_dropped (lines : List Str) (rel : Str) :
    (load_gitignore_patterns (some lines)).all
        (fun pattern => !pyStartsWith ['!'] pattern) = true ∧
    should_exclude_by_gitignore rel (load_gitignore_patterns (some lines)) =
      should_exclude_by_gitignore rel
        (load_gitignore_patterns
          (some (lines.filter (fun l => !pyStartsWith ['!'] (pyStrip l))))) := by
  constructor
  · simp only [load_gitignore_patterns, List.all_eq_true, List.mem_filter,
      List.mem_map]
    rintro pattern ⟨⟨l, _, rfl⟩, hcond⟩
    simp only [Bool.not_eq_true', Bool.or_eq_false_iff] at hcond
    simp [hcond.2]
  · rw [load_gitignore_drop_neg]

/-! ## C2: admission at the pattern-selection stage -/

/-- C2: a candidate relative path passes the pattern-selection stage of
`collect_files` (written in the source as a chain of `continue`s) exactly
when some effective include pattern fnmatches it, no effective exclude
pattern matches it, and — when gitignore support is enabled — no loaded
gitignore rule matches it. -/
theorem c2_admission_iff (env : WalkEnv) (inc exc : Option (List Str))
    (use_gitignore : Bool) (rel : Str) :
    passes_pattern_stage env inc exc use_gitignore rel =
      ((effective_include env inc).any (fun pattern => fnmatch rel pattern) &&
        !((effective_exclude env inc exc).any
            (fun pattern => matches_exclude_pattern rel pattern)) &&
        !(use_gitignore &&
            should_exclude_by_gitignore rel (load_gitignore_patterns env.gitignore))) := by
  unfold passes_pattern_stage
  cases use_gitignore with
  | false =>
    cases hA : (effective_include env inc).any (fun pattern => fnmatch rel pattern) <;>
      cases hB : (effective_exclude env inc exc).any
          (fun pattern => matches_exclude_pattern rel pattern) <;>
      simp [hA, hB]
  | true =>
    cases hA : (effective_include env inc).any (fun pattern => fnmatch rel pattern) <;>
      cases hB : (effective_exclude env inc exc).any
          (fun pattern => matches_exclude_pattern rel pattern) <;>
      cases hC : should_exclude_by_gitignore rel (load_gitignore_patterns env.gitignore) <;>
      simp [hA, hB, hC]

/-! ## Shape lemmas for the mutual tree functions -/

theorem calc_size_list_eq (cs : List TreeNode) :
    calc_size_list cs = cs.map calc_size := by
  induction cs with
  | nil => rfl
  | cons c cs ih => rw [calc_size_list, ih, List.map_cons]

theorem sort_children_list_eq (sort_by : Str) (dirs_first : Bool) (cs : List TreeNode) :
    sort_children_list sort_by dirs_first cs =
      cs.map (fun c => if c.is_dir then sort_children sort_by dirs_first c else c) := by
  induction cs with
  | nil => rfl
  | cons c cs ih => rw [sort_children_list, ih, List.map_cons]

theorem trim_depth_list_eq (max_depth : Int) (cs : List TreeNode) (depth : Nat) :
    trim_depth_list max_depth cs depth =
      cs.map (fun c => if c.is_dir then trim_depth max_depth c depth else c) := by
  induction cs with
  | nil => rfl
  | cons c cs ih => rw [trim_depth_list, ih, List.map_cons]

theorem file_size_sum_list_eq (cs : List TreeNode) :
    file_size_sum_list cs = (cs.map file_size_sum).sum := by
  induction cs with
  | nil => rfl
  | cons c cs ih => rw [file_size_sum_list, ih, List.map_cons, List.sum_cons]

theorem file_tokens_sum_list_eq (cs : List TreeNode) :
    file_tokens_sum_list cs = (cs.map file_tokens_sum).sum := by
  induction cs with
  | nil => rfl
  | cons c cs ih => rw [file_tokens_sum_list, ih, List.map_cons, List.sum_cons]

theorem dirs_nodup_list_eq (cs : List TreeNode) :
    dirs_nodup_list cs = cs.all dirs_nodup := by
  induction cs with
  | nil => rfl
  | cons c cs ih => rw [dirs_nodup_list, ih, List.all_cons]

theorem calc_size_file (t : TreeNode) (h : t.is_dir = false) : calc_size t = t := by
  cases t with
  | mk nm p d s tk cs =>
    simp only at h
    rw [calc_size]
    simp [h]

theorem calc_size_dir (t : TreeNode) (h : t.is_dir = true) :
    calc_size t =
      ⟨t.name, t.path, t.is_dir, ((calc_size_list t.children).map TreeNode.size).sum,
        ((calc_size_list t.children).map TreeNode.tokens).sum,
        calc_size_list t.children⟩ := by
  cases t with
  | mk nm p d s tk cs =>
    simp only at h
    rw [calc_size]
    simp [h]

theorem calc_size_is_dir (t : TreeNode) : (calc_size t).is_dir = t.is_dir := by
  cases h : t.is_dir
  · rw [calc_size_file t h]; exact h
  · rw [calc_size_dir t h]; exact h

theorem calc_size_name (t : TreeNode) : (calc_size t).name = t.name := by
  cases h : t.is_dir
  · rw [calc_size_file t h]
  · rw [calc_size_dir t h]

theorem sort_children_eq (sort_by : Str) (dirs_first : Bool) (t : TreeNode) :
    sort_children sort_by dirs_first t =
      ⟨t.name, t.path, t.is_dir, t.size, t.tokens,
        if dirs_first then
          stableSort (sort_le sort_by)
              ((sort_children_list sort_by dirs_first t.children).filter
                (fun c => c.is_dir)) ++
            stableSort (sort_le sort_by)
              ((sort_children_list sort_by dirs_first t.children).filter
                (fun c => !c.is_dir))
        else stableSort (sort_le sort_by) (sort_children_list sort_by dirs_first t.children)⟩ := by
  cases t with
  | mk nm p d s tk cs => rw [sort_children]

theorem trim_depth_stop (max_depth : Int) (t : TreeNode) (depth : Nat)
    (h : max_depth ≤ (depth : Int)) :
    trim_depth max_depth t depth = ⟨t.name, t.path, t.is_dir, t.size, t.tokens, []⟩ := by
  cases t with
  | mk nm p d s tk cs =>
    rw [trim_depth]
    simp [h]

theorem trim_depth_go (max_depth : Int) (t : TreeNode) (depth : Nat)
    (h : ¬max_depth ≤ (depth : Int)) :
    trim_depth max_depth t depth =
      ⟨t.name, t.path, t.is_dir, t.size, t.tokens,
        trim_depth_list max_depth t.children (depth + 1)⟩ := by
  cases t with
  | mk nm p d s tk cs =>
    rw [trim_depth]
    simp [h]

theorem add_to_tree_name (t : TreeNode) (parts : List Str) (fi : Option FileInfo) :
    (add_to_tree t parts fi).name = t.name := by
  match parts, fi with
  | [], _ => rfl
  | [p], some fi => rfl
  | [p], none => rfl
  | p :: q :: rest, fi => rfl

theorem add_to_tree_is_dir (t : TreeNode) (parts : List Str) (fi : Option FileInfo) :
    (add_to_tree t parts fi).is_dir = t.is_dir := by
  match parts, fi with
  | [], _ => rfl
  | [p], some fi => rfl
  | [p], none => rfl
  | p :: q :: rest, fi => rfl

/-! ## The stable sort permutes -/

theorem stableInsert_perm (le : TreeNode → TreeNode → Bool) (a : TreeNode)
    (l : List TreeNode) : (stableInsert le a l).Perm (a :: l) := by
  induction l with
  | nil => exact List.Perm.refl _
  | cons b bs ih =>
    rw [stableInsert]
    by_cases h : le a b = true
    · simp [h]
    · simp only [h, if_false]
      exact (ih.cons b).trans (List.Perm.swap a b bs)

theorem stableSort_perm (le : TreeNode → TreeNode → Bool) (l : List TreeNode) :
    (stableSort le l).Perm l := by
  induction l with
  | nil => exact List.Perm.refl _
  | cons a as ih =>
    rw [stableSort]
    exact (stableInsert_perm le a _).trans (ih.cons a)

/-- The children of a sorted node are a permutation of the recursively
sorted original children. -/
theorem sort_children_children_perm (sort_by : Str) (dirs_first : Bool) (t : TreeNode) :
    (sort_children sort_by dirs_first t).children.Perm
      (sort_children_list sort_by dirs_first t.children) := by
  rw [sort_children_eq]
  cases dirs_first with
  | false =>
    simp only [Bool.false_eq_true, if_false]
    exact stableSort_perm _ _
  | true =>
    simp only [if_true]
    exact ((stableSort_perm _ _).append (stableSort_perm _ _)).trans
      (List.filter_append_perm (fun c : TreeNode => c.is_dir) _)

/-! ## Node-form lemmas -/

theorem file_size_sum_node (t : TreeNode) :
    file_size_sum t = if t.is_dir then file_size_sum_list t.children else t.size := by
  cases t with
  | mk nm p d s tk cs => rw [file_size_sum]

theorem file_tokens_sum_node (t : TreeNode) :
    file_tokens_sum t = if t.is_dir then file_tokens_sum_list t.children else t.tokens := by
  cases t with
  | mk nm p d s tk cs => rw [file_tokens_sum]

theorem dirs_nodup_node (t : TreeNode) :
    dirs_nodup t = (dir_names_unique t.children && dirs_nodup_list t.children) := by
  cases t with
  | mk nm p d s tk cs => rw [dirs_nodup]

theorem sort_children_is_dir (sort_by : Str) (dirs_first : Bool) (t : TreeNode) :
    (sort_children sort_by dirs_first t).is_dir = t.is_dir := by
  rw [sort_children_eq]

theorem sort_children_name (sort_by : Str) (dirs_first : Bool) (t : TreeNode) :
    (sort_children sort_by dirs_first t).name = t.name := by
  rw [sort_children_eq]

theorem sort_children_size (sort_by : Str) (dirs_first : Bool) (t : TreeNode) :
    (sort_children sort_by dirs_first t).size = t.size := by
  rw [sort_children_eq]

theorem sort_children_tokens (sort_by : Str) (dirs_first : Bool) (t : TreeNode) :
    (sort_children sort_by dirs_first t).tokens = t.tokens := by
  rw [sort_children_eq]

theorem file_size_sum_list_perm {l l' : List TreeNode} (h : l.Perm l') :
    file_size_sum_list l = file_size_sum_list l' := by
  rw [file_size_sum_list_eq, file_size_sum_list_eq]
  exact (h.map file_size_sum).sum_eq

theorem file_tokens_sum_list_perm {l l' : List TreeNode} (h : l.Perm l') :
    file_tokens_sum_list l = file_tokens_sum_list l' := by
  rw [file_tokens_sum_list_eq, file_tokens_sum_list_eq]
  exact (h.map file_tokens_sum).sum_eq

theorem file_size_sum_list_congr {cs : List TreeNode} {f : TreeNode → TreeNode}
    (h : ∀ c ∈ cs, file_size_sum (f c) = file_size_sum c) :
    file_size_sum_list (cs.map f) = file_size_sum_list cs := by
  rw [file_size_sum_list_eq, file_size_sum_list_eq, List.map_map]
  exact congrArg List.sum (List.map_congr_left h)

theorem file_tokens_sum_list_congr {cs : List TreeNode} {f : TreeNode → TreeNode}
    (h : ∀ c ∈ cs, file_tokens_sum (f c) = file_tokens_sum c) :
    file_tokens_sum_list (cs.map f) = file_tokens_sum_list cs := by
  rw [file_tokens_sum_list_eq, file_tokens_sum_list_eq, List.map_map]
  exact congrArg List.sum (List.map_congr_left h)

/-! ## The roll-up establishes the aggregate invariant -/

theorem calc_size_agg : ∀ t : TreeNode,
    (calc_size t).size = file_size_sum t ∧ (calc_size t).tokens = file_tokens_sum t := by
  apply tree_ind
  intro t ih
  cases hd : t.is_dir
  · rw [calc_size_file t hd, file_size_sum_node, file_tokens_sum_node, hd]
    exact ⟨rfl, rfl⟩
  · rw [calc_size_dir t hd, file_size_sum_node, file_tokens_sum_node, hd]
    simp only [if_true, calc_size_list_eq, List.map_map]
    constructor
    · rw [file_size_sum_list_eq]
      exact congrArg List.sum (List.map_congr_left fun c hc => (ih c hc).1)
    · rw [file_tokens_sum_list_eq]
      exact congrArg List.sum (List.map_congr_left fun c hc => (ih c hc).2)

theorem file_size_sum_calc : ∀ t : TreeNode,
    file_size_sum (calc_size t) = file_size_sum t ∧
    file_tokens_sum (calc_size t) = file_tokens_sum t := by
  apply tree_ind
  intro t ih
  cases hd : t.is_dir
  · rw [calc_size_file t hd]
    exact ⟨rfl, rfl⟩
  · rw [calc_size_dir t hd, file_size_sum_node, file_size_sum_node,
      file_tokens_sum_node, file_tokens_sum_node]
    simp only [hd, if_true, calc_size_list_eq]
    exact ⟨file_size_sum_list_congr fun c hc => (ih c hc).1,
      file_tokens_sum_list_congr fun c hc => (ih c hc).2⟩

theorem aggok_calc : ∀ t : TreeNode, AggOk (calc_size t) := by
  apply tree_ind
  intro t ih
  refine AggOk.intro _ (fun _ => ?_) (fun hd c hc => ?_)
  · exact ⟨(calc_size_agg t).1.trans (file_size_sum_calc t).1.symm,
      (calc_size_agg t).2.trans (file_size_sum_calc t).2.symm⟩
  · have hdir : t.is_dir = true := by rw [← calc_size_is_dir]; exact hd
    rw [calc_size_dir t hdir] at hc
    simp only [calc_size_list_eq, List.mem_map] at hc
    obtain ⟨c0, hc0, rfl⟩ := hc
    exact ih c0 hc0

/-! ## Sorting preserves the aggregate invariant -/

theorem file_size_sum_sort (sort_by : Str) (dirs_first : Bool) : ∀ t : TreeNode,
    file_size_sum (sort_children sort_by dirs_first t) = file_size_sum t ∧
    file_tokens_sum (sort_children sort_by dirs_first t) = file_tokens_sum t := by
  apply tree_ind
  intro t ih
  have hlist :
      file_size_sum_list (sort_children sort_by dirs_first t).children =
        file_size_sum_list t.children ∧
      file_tokens_sum_list (sort_children sort_by dirs_first t).children =
        file_tokens_sum_list t.children := by
    have hperm := sort_children_children_perm sort_by dirs_first t
    rw [file_size_sum_list_perm hperm, file_tokens_sum_list_perm hperm,
      sort_children_list_eq]
    constructor
    · apply file_size_sum_list_congr
      intro c hc
      cases hcd : c.is_dir
      · simp [hcd]
      · simp only [hcd, if_true]
        exact (ih c hc).1
    · apply file_tokens_sum_list_congr
      intro c hc
      cases hcd : c.is_dir
      · simp [hcd]
      · simp only [hcd, if_true]
        exact (ih c hc).2
  rw [file_size_sum_node, file_size_sum_node, file_tokens_sum_node, file_tokens_sum_node,
    sort_children_is_dir, sort_children_size, sort_children_tokens]
  cases hd : t.is_dir
  · simp
  · simp only [if_true]
    exact hlist

theorem aggok_sort (sort_by : Str) (dirs_first : Bool) : ∀ t : TreeNode,
    AggOk t → AggOk (sort_children sort_by dirs_first t) := by
  apply tree_ind
  intro t ih hok
  obtain ⟨_, hagg, hch⟩ := hok
  refine AggOk.intro _ (fun hd => ?_) (fun hd c hc => ?_)
  · rw [sort_children_is_dir] at hd
    obtain ⟨h1, h2⟩ := hagg hd
    rw [sort_children_size, sort_children_tokens, h1, h2]
    exact ⟨(file_size_sum_sort sort_by dirs_first t).1.symm,
      (file_size_sum_sort sort_by dirs_first t).2.symm⟩
  · rw [sort_children_is_dir] at hd
    have hc' := (sort_children_children_perm sort_by dirs_first t).mem_iff.mp hc
    rw [sort_children_list_eq] at hc'
    simp only [List.mem_map] at hc'
    obtain ⟨c0, hc0, rfl⟩ := hc'
    cases hcd : c0.is_dir
    · simpa [hcd] using hch hd c0 hc0
    · simp only [hcd, if_true]
      exact ih c0 hc0 (hch hd c0 hc0)

/-! ## Depth pruning only empties child lists -/

theorem mem_zip_map {α : Type} {g : α → α} :
    ∀ (l : List α) (p : α × α), p ∈ l.zip (l.map g) → p.2 = g p.1 ∧ p.1 ∈ l := by
  intro l
  induction l with
  | nil => intro p hp; simp at hp
  | cons a as ih =>
    intro p hp
    rw [List.map_cons, List.zip_cons_cons] at hp
    rcases List.mem_cons.mp hp with h | h
    · subst h
      exact ⟨rfl, List.mem_cons_self a as⟩
    · obtain ⟨h1, h2⟩ := ih p h
      exact ⟨h1, List.mem_cons_of_mem a h2⟩

theorem mem_zip_same {α : Type} :
    ∀ (l : List α) (p : α × α), p ∈ l.zip l → p.1 = p.2 ∧ p.1 ∈ l := by
  intro l p hp
  have h := mem_zip_map (g := fun a : α => a) l p (by simpa using hp)
  exact ⟨h.1.symm, h.2⟩

theorem agrees_refl : ∀ t : TreeNode, Agrees t t := by
  apply tree_ind
  intro t ih
  refine Agrees.step t t rfl rfl rfl rfl rfl rfl (fun p hp => ?_)
  obtain ⟨h1, h2⟩ := mem_zip_same _ p hp
  rw [← h1]
  exact ih p.1 h2

theorem agrees_trim (max_depth : Int) : ∀ (t : TreeNode) (depth : Nat),
    Agrees t (trim_depth max_depth t depth) := by
  have key : ∀ t : TreeNode, ∀ depth : Nat, Agrees t (trim_depth max_depth t depth) := by
    apply tree_ind (P := fun t => ∀ depth : Nat, Agrees t (trim_depth max_depth t depth))
    intro t ih depth
    by_cases h : max_depth ≤ (depth : Int)
    · rw [trim_depth_stop max_depth t depth h]
      exact Agrees.prune _ _ rfl rfl rfl rfl rfl rfl
    · rw [trim_depth_go max_depth t depth h]
      refine Agrees.step _ _ rfl rfl rfl rfl rfl ?_ (fun p hp => ?_)
      · simp [trim_depth_list_eq]
      · rw [trim_depth_list_eq] at hp
        obtain ⟨h1, h2⟩ := mem_zip_map t.children p hp
        rw [h1]
        cases hcd : p.1.is_dir
        · simpa [hcd] using agrees_refl p.1
        · simp only [hcd, if_true]
          exact ih p.1 h2 (depth + 1)
  exact key

/-! ## C4: aggregates are leaf sums and survive pruning -/

/-- C4: in a built tree every directory's `size` and `tokens` equal the
sums over the file leaves inserted below it (`AggOk` of the unpruned
tree), and depth pruning happens after aggregation: the tree built with
`max_depth = m` agrees node-for-node — same names, kinds and aggregates —
with the unpruned tree, differing only by emptied child lists. -/
theorem c4_aggregates_and_pruning (files : List FileInfo) (root_name : Str)
    (sort_by : Str) (dirs_first : Bool) (m : Int) :
    AggOk (build_tree files root_name none sort_by dirs_first) ∧
    Agrees (build_tree files root_name none sort_by dirs_first)
      (build_tree files root_name (some m) sort_by dirs_first) := by
  constructor
  · exact aggok_sort sort_by dirs_first _ (aggok_calc _)
  · exact agrees_trim m _ 0

/-! ## Directory-name uniqueness -/

theorem dir_names_unique_iff_pairwise (cs : List TreeNode) :
    dir_names_unique cs = true ↔
      List.Pairwise (fun a b : TreeNode =>
        a.is_dir = true → b.is_dir = true → a.name ≠ b.name) cs := by
  induction cs with
  | nil => simp [dir_names_unique]
  | cons c cs ih =>
    rw [dir_names_unique, List.pairwise_cons, Bool.and_eq_true, ih]
    constructor
    · rintro ⟨h1, h2⟩
      refine ⟨?_, h2⟩
      intro b hb hcd hbd heq
      rw [Bool.or_eq_true] at h1
      rcases h1 with h1 | h1
      · rw [hcd] at h1
        simp at h1
      · rw [Bool.not_eq_true', List.any_eq_false] at h1
        have hbc := h1 b hb
        rw [hbd, heq] at hbc
        simp at hbc
    · rintro ⟨h1, h2⟩
      refine ⟨?_, h2⟩
      cases hcd : c.is_dir
      · simp
      · rw [Bool.or_eq_true]
        right
        rw [Bool.not_eq_true', List.any_eq_false]
        intro b hb
        cases hbd : b.is_dir
        · simp [hbd]
        · simp only [hbd, Bool.true_and, Bool.not_eq_true, beq_eq_false_iff_ne]
          exact fun he => (h1 b hb hcd hbd) he.symm

theorem dir_names_unique_perm {l l' : List TreeNode} (h : l.Perm l') :
    dir_names_unique l = dir_names_unique l' := by
  rw [Bool.eq_iff_iff, dir_names_unique_iff_pairwise, dir_names_unique_iff_pairwise]
  exact h.pairwise_iff (fun hxy hy hx => Ne.symm (hxy hx hy))

theorem dir_names_unique_map {cs : List TreeNode} {f : TreeNode → TreeNode}
    (hname : ∀ c, (f c).name = c.name) (hdir : ∀ c, (f c).is_dir = c.is_dir) :
    dir_names_unique (cs.map f) = dir_names_unique cs := by
  rw [Bool.eq_iff_iff, dir_names_unique_iff_pairwise, dir_names_unique_iff_pairwise,
    List.pairwise_map]
  constructor
  · exact fun h => h.imp (fun {a b} hab ha hb => by
      rw [← hname a, ← hname b]
      exact hab (by rw [hdir a]; exact ha) (by rw [hdir b]; exact hb))
  · exact fun h => h.imp (fun {a b} hab ha hb => by
      rw [hname a, hname b]
      exact hab (by rw [← hdir a]; exact ha) (by rw [← hdir b]; exact hb))

theorem dir_names_unique_append_file (cs : List TreeNode) (x : TreeNode)
    (hx : x.is_dir = false) :
    dir_names_unique (cs ++ [x]) = dir_names_unique cs := by
  induction cs with
  | nil => simp [dir_names_unique, hx]
  | cons c cs ih =>
    rw [List.cons_append, dir_names_unique, dir_names_unique, ih,
      List.any_append]
    have : ([x] : List TreeNode).any (fun d => d.is_dir && d.name == c.name) = false := by
      simp [hx]
    rw [this, Bool.or_false]

theorem dirs_nodup_list_append (l l' : List TreeNode) :
    dirs_nodup_list (l ++ l') = (dirs_nodup_list l && dirs_nodup_list l') := by
  rw [dirs_nodup_list_eq, dirs_nodup_list_eq, dirs_nodup_list_eq, List.all_append]

theorem update_or_append_any (pred q : TreeNode → Bool) (f : TreeNode → TreeNode)
    (fresh : TreeNode) (hf : ∀ x, q (f x) = q x) (hfresh : q fresh = false) :
    ∀ cs : List TreeNode, (update_or_append pred f fresh cs).any q = cs.any q := by
  intro cs
  induction cs with
  | nil => simp [update_or_append, hfresh]
  | cons c cs ih =>
    rw [update_or_append]
    by_cases h : pred c = true
    · simp [h, hf]
    · simp [h, List.any_cons, ih]

theorem update_or_append_dirs (p : Str) (f : TreeNode → TreeNode) (fresh : TreeNode)
    (hfname : ∀ c, (f c).name = c.name) (hfdir : ∀ c, (f c).is_dir = c.is_dir)
    (hfnodup : ∀ c, dirs_nodup c = true → dirs_nodup (f c) = true)
    (hfreshname : fresh.name = p) (hfreshdir : fresh.is_dir = true)
    (hfreshnodup : dirs_nodup fresh = true) :
    ∀ cs : List TreeNode, dir_names_unique cs = true → dirs_nodup_list cs = true →
      dir_names_unique (update_or_append (fun c => c.name == p && c.is_dir) f fresh cs) =
          true ∧
        dirs_nodup_list (update_or_append (fun c => c.name == p && c.is_dir) f fresh cs) =
          true := by
  intro cs
  induction cs with
  | nil =>
    intro _ _
    constructor
    · simp [update_or_append, dir_names_unique]
    · simp [update_or_append, dirs_nodup_list, hfreshnodup]
  | cons c cs ih =>
    intro hdn hnl
    rw [dir_names_unique, Bool.and_eq_true] at hdn
    rw [dirs_nodup_list, Bool.and_eq_true] at hnl
    rw [update_or_append]
    by_cases hpred : (c.name == p && c.is_dir) = true
    · rw [if_pos hpred]
      constructor
      · rw [dir_names_unique, hfname c, hfdir c, Bool.and_eq_true]
        exact ⟨hdn.1, hdn.2⟩
      · rw [dirs_nodup_list, Bool.and_eq_true]
        exact ⟨hfnodup c hnl.1, hnl.2⟩
    · rw [if_neg hpred]
      obtain ⟨hh, ht⟩ := ih hdn.2 hnl.2
      constructor
      · rw [dir_names_unique, Bool.and_eq_true]
        refine ⟨?_, hh⟩
        cases hcd : c.is_dir
        · simp
        · rw [Bool.or_eq_true]
          right
          have hfresh0 : (fresh.is_dir && fresh.name == c.name) = false := by
            rw [hfreshdir, hfreshname, Bool.true_and, beq_eq_false_iff_ne]
            intro he
            apply hpred
            rw [Bool.and_eq_true, beq_iff_eq, hcd]
            exact ⟨he.symm, rfl⟩
          rw [update_or_append_any _ _ f fresh
            (fun x => by rw [hfdir x, hfname x]) hfresh0 cs]
          rcases Bool.or_eq_true _ _ |>.mp hdn.1 with h | h
          · rw [hcd] at h
            simp at h
          · exact h
      · rw [dirs_nodup_list, Bool.and_eq_true]
        exact ⟨hnl.1, ht⟩

theorem dirs_nodup_add : ∀ (parts : List Str) (t : TreeNode) (fi : FileInfo),
    dirs_nodup t = true → dirs_nodup (add_to_tree t parts (some fi)) = true := by
  intro parts
  induction parts with
  | nil =>
    intro t fi h
    exact h
  | cons pp rest ih =>
    intro t fi h
    cases rest with
    | nil =>
      rw [add_to_tree]
      rw [dirs_nodup_node] at h ⊢
      simp only [Bool.and_eq_true] at h ⊢
      constructor
      · rw [dir_names_unique_append_file t.children (leafNode pp fi.size) rfl]
        exact h.1
      · rw [dirs_nodup_list_append, Bool.and_eq_true]
        exact ⟨h.2, rfl⟩
    | cons qq rest2 =>
      rw [add_to_tree]
      rw [dirs_nodup_node] at h ⊢
      simp only [Bool.and_eq_true] at h ⊢
      exact update_or_append_dirs pp
        (fun c => add_to_tree c (qq :: rest2) (some fi))
        (add_to_tree (dirNode pp) (qq :: rest2) (some fi))
        (fun c => add_to_tree_name c (qq :: rest2) (some fi))
        (fun c => add_to_tree_is_dir c (qq :: rest2) (some fi))
        (fun c hc => ih c fi hc)
        (add_to_tree_name (dirNode pp) (qq :: rest2) (some fi))
        (add_to_tree_is_dir (dirNode pp) (qq :: rest2) (some fi))
        (ih (dirNode pp) fi rfl)
        t.children h.1 h.2

theorem dirs_nodup_calc : ∀ t : TreeNode,
    dirs_nodup t = true → dirs_nodup (calc_size t) = true := by
  apply tree_ind
  intro t ih h
  cases hd : t.is_dir
  · rw [calc_size_file t hd]
    exact h
  · rw [calc_size_dir t hd, dirs_nodup_node] at *
    simp only [calc_size_list_eq, Bool.and_eq_true] at *
    constructor
    · rw [dir_names_unique_map calc_size_name calc_size_is_dir]
      exact h.1
    · rw [dirs_nodup_list_eq, List.all_eq_true]
      intro x hx
      rw [List.mem_map] at hx
      obtain ⟨c0, hc0, rfl⟩ := hx
      apply ih c0 hc0
      rw [dirs_nodup_list_eq, List.all_eq_true] at h
      exact h.2 c0 hc0

theorem dirs_nodup_sort (sort_by : Str) (dirs_first : Bool) : ∀ t : TreeNode,
    dirs_nodup t = true → dirs_nodup (sort_children sort_by dirs_first t) = true := by
  apply tree_ind
  intro t ih h
  rw [dirs_nodup_node] at h ⊢
  rw [Bool.and_eq_true] at h ⊢
  have hperm := sort_children_children_perm sort_by dirs_first t
  constructor
  · rw [dir_names_unique_perm hperm, sort_children_list_eq,
      dir_names_unique_map
        (fun c => by cases hcd : c.is_dir <;> simp [hcd, sort_children_name])
        (fun c => by cases hcd : c.is_dir <;> simp [hcd, sort_children_is_dir])]
    exact h.1
  · rw [dirs_nodup_list_eq, List.all_eq_true]
    intro x hx
    rw [hperm.mem_iff, sort_children_list_eq, List.mem_map] at hx
    obtain ⟨c0, hc0, rfl⟩ := hx
    have hc0n : dirs_nodup c0 = true := by
      have := h.2
      rw [dirs_nodup_list_eq, List.all_eq_true] at this
      exact this c0 hc0
    cases hcd : c0.is_dir
    · simpa [hcd] using hc0n
    · simp only [hcd, if_true]
      exact ih c0 hc0 hc0n

theorem trim_depth_name (max_depth : Int) (t : TreeNode) (depth : Nat) :
    (trim_depth max_depth t depth).name = t.name := by
  by_cases h : max_depth ≤ (depth : Int)
  · rw [trim_depth_stop _ _ _ h]
  · rw [trim_depth_go _ _ _ h]

theorem trim_depth_is_dir (max_depth : Int) (t : TreeNode) (depth : Nat) :
    (trim_depth max_depth t depth).is_dir = t.is_dir := by
  by_cases h : max_depth ≤ (depth : Int)
  · rw [trim_depth_stop _ _ _ h]
  · rw [trim_depth_go _ _ _ h]

theorem dirs_nodup_trim (max_depth : Int) : ∀ t : TreeNode, ∀ depth : Nat,
    dirs_nodup t = true → dirs_nodup (trim_depth max_depth t depth) = true := by
  apply tree_ind (P := fun t => ∀ depth : Nat,
    dirs_nodup t = true → dirs_nodup (trim_depth max_depth t depth) = true)
  intro t ih depth h
  by_cases hle : max_depth ≤ (depth : Int)
  · rw [trim_depth_stop max_depth t depth hle, dirs_nodup_node]
    rfl
  · rw [trim_depth_go max_depth t depth hle, dirs_nodup_node]
    rw [dirs_nodup_node, Bool.and_eq_true] at h
    simp only [trim_depth_list_eq, Bool.and_eq_true]
    constructor
    · rw [dir_names_unique_map
        (fun c => by cases hcd : c.is_dir <;> simp [hcd, trim_depth_name])
        (fun c => by cases hcd : c.is_dir <;> simp [hcd, trim_depth_is_dir])]
      exact h.1
    · rw [dirs_nodup_list_eq, List.all_eq_true]
      intro x hx
      rw [List.mem_map] at hx
      obtain ⟨c0, hc0, rfl⟩ := hx
      have hc0n : dirs_nodup c0 = true := by
        have := h.2
        rw [dirs_nodup_list_eq, List.all_eq_true] at this
        exact this c0 hc0
      cases hcd : c0.is_dir
      · simpa [hcd] using hc0n
      · simp only [hcd, if_true]
        exact ih c0 hc0 (depth + 1) hc0n

theorem dirs_nodup_fold (files : List FileInfo) : ∀ t : TreeNode,
    dirs_nodup t = true →
      dirs_nodup (files.foldl (fun n fi => add_to_tree n fi.parts (some fi)) t) = true := by
  induction files with
  | nil => intro t h; exact h
  | cons f fs ih =>
    intro t h
    rw [List.foldl_cons]
    exact ih _ (dirs_nodup_add f.parts t f h)

/-! ## C5, amended: sibling directories never share a name -/

/-- C5, amended: in every tree returned by `build_tree`, no two sibling
*directory* nodes share a name, for any input file list.  (Sibling file
leaves can repeat a name — see the counterexample — because a final path
segment is appended without a lookup, while an intermediate segment
reuses the existing same-named directory child.) -/
theorem c5_amended_dirs_nodup (files : List FileInfo) (root_name : Str)
    (max_depth : Option Int) (sort_by : Str) (dirs_first : Bool) :
    dirs_nodup (build_tree files root_name max_depth sort_by dirs_first) = true := by
  cases max_depth with
  | none =>
    exact dirs_nodup_sort sort_by dirs_first _
      (dirs_nodup_calc _ (dirs_nodup_fold files _ rfl))
  | some m =>
    exact dirs_nodup_trim m _ 0
      (dirs_nodup_sort sort_by dirs_first _
        (dirs_nodup_calc _ (dirs_nodup_fold files _ rfl)))
